import Mathlib

/-!
Verification development for the two plugins of this repository:
the hosts-file merge of the ImmortalWrt hosts plugin (src/__init__.py)
and the path translation / scan-queue processing of the Plex scan plugin
(src/plugins.v2/plexpartialscan/__init__.py).

Strings are modelled as lists of characters (`Str`).  Python whitespace
(as used by str.strip and by the regex class \s on the characters that
occur in hosts files) is modelled by `isPySpace`; the rarer Unicode
whitespace code points behave identically in both Python operations used
by the source and are not needed by any statement below.
-/

abbrev Str : Type := List Char

/-- Whitespace characters: space, tab, newline, carriage return, vertical
tab and form feed.  Both Python's str.strip() and the regex class \s treat
all six as whitespace. -/
def isPySpace (c : Char) : Bool :=
  c == ' ' || c == '\t' || c == '\n' || c == '\r' || c == '\x0b' || c == '\x0c'

/-- Python str.strip(): drop leading and trailing whitespace. -/
def pyStrip (s : Str) : Str :=
  ((s.dropWhile isPySpace).reverse.dropWhile isPySpace).reverse

/-- Python line.lstrip("﻿"): drop leading byte-order marks. -/
def dropBOM (s : Str) : Str := s.dropWhile (fun c => c == '﻿')

/-- Python re.split(r"\s+", s) for a stripped string s: the maximal runs
of non-whitespace characters.  (On a string with no leading or trailing
whitespace, re.split produces exactly these runs; the source only splits
line_stripped / the stripped local line.) -/
def tokensOf (s : Str) : List Str :=
  (s.splitOnP isPySpace).filter (fun t => !t.isEmpty)

/-- The ignore list of __merge_hosts_with_local, lines 549-550:
self._ignore.split("|") if self._ignore else [], extended with
"localhost".  An unset or empty config is falsy in Python; both are
modelled by the empty string. -/
def mkIgnore (cfg : Str) : List Str :=
  (if cfg.isEmpty then [] else cfg.splitOn '|') ++ ["localhost".toList]

/- ipaddress-based address filter (src/__init__.py lines 623-635).
ipaddress.ip_address tries IPv4 then IPv6; on failure __should_ignore_ip
returns False.  For a parsed address the source tests
`ip_obj.is_loopback or ip_obj.version == 6`. -/

/-- Value of a string of decimal digits. -/
def digitsToNat (s : Str) : Nat :=
  s.foldl (fun n c => n * 10 + (c.toNat - 48)) 0

/-- One dotted-quad octet per ipaddress._parse_octet: non-empty, decimal
digits only, at most 3 characters, no leading zero, value at most 255. -/
def octetOk (s : Str) : Bool :=
  !s.isEmpty && s.all Char.isDigit && decide (s.length ≤ 3) &&
    (s == ['0'] || !(s.head? == some '0')) && decide (digitsToNat s ≤ 255)

/-- Valid IPv4 address string: exactly four dot-separated valid octets. -/
def isIPv4 (s : Str) : Bool :=
  let parts := s.splitOn '.'
  parts.length == 4 && parts.all octetOk

/-- First octet of a (valid) IPv4 address string. -/
def ipv4FirstOctet (s : Str) : Nat :=
  digitsToNat ((s.splitOn '.').headD [])

/-- One IPv6 hextet per ipaddress._parse_hextet: 1 to 4 hex digits. -/
def hextetOk (s : Str) : Bool :=
  !s.isEmpty && decide (s.length ≤ 4) &&
    s.all (fun c => c.isDigit || ('a' ≤ c && c ≤ 'f') || ('A' ≤ c && c ≤ 'F'))

/-- Colon-separated parts of an IPv6 address per
ipaddress._ip_int_from_string: at least 3 parts; an embedded dotted-quad
in the last part is replaced by two hextets (their numeric value is
irrelevant to validity, so two placeholder hextets are appended). -/
def ipv6Parts (s : Str) : Option (List Str) :=
  let ps := s.splitOn ':'
  if ps.length < 3 then none
  else if (ps.getLastD []).contains '.' then
    if isIPv4 (ps.getLastD []) then some (ps.dropLast ++ [['0'], ['0']]) else none
  else some ps

/-- IPv6 address validity without a zone, following
ipaddress._ip_int_from_string: at most one empty part strictly inside
(the "::"), an empty first or last part only next to the "::", at most
7 explicit hextets around a "::" (so that it stands for at least one
group), exactly 8 valid hextets when there is no "::". -/
def isIPv6Core (s : Str) : Bool :=
  !s.isEmpty &&
    match ipv6Parts s with
    | none => false
    | some ps =>
      decide (ps.length ≤ 9) &&
        (let n := ps.length
         let mids := (ps.drop 1).dropLast
         if decide (2 ≤ mids.countP (·.isEmpty)) then false
         else
           match mids.findIdx? (·.isEmpty) with
           | some m =>
             let k := m + 1
             (!(ps.headD [' ']).isEmpty || k == 1) &&
               (!(ps.getLastD [' ']).isEmpty || k == n - 2) &&
                 (let hi := if (ps.headD [' ']).isEmpty then [] else ps.take k
                  let lo := if (ps.getLastD [' ']).isEmpty then [] else ps.drop (k + 1)
                  decide (hi.length + lo.length ≤ 7) && (hi ++ lo).all hextetOk)
           | none => n == 8 && ps.all hextetOk)

/-- IPv6 address validity including an optional "%zone" suffix
(ipaddress._split_scope_id: the zone follows the first '%', must be
non-empty and must not itself contain '%'). -/
def isIPv6 (s : Str) : Bool :=
  if s.contains '%' then
    let addr := s.takeWhile (fun c => c ≠ '%')
    let zone := (s.dropWhile (fun c => c ≠ '%')).drop 1
    !zone.isEmpty && !zone.contains '%' && isIPv6Core addr
  else isIPv6Core s

/-- __should_ignore_ip (src/__init__.py lines 623-635): True for an IPv4
loopback address (first octet 127) and for every valid IPv6 address;
False when ipaddress.ip_address raises ValueError. -/
def should_ignore_ip (s : Str) : Bool :=
  if isIPv4 s then ipv4FirstOctet s == 127
  else isIPv6 s

/- The merge itself (src/__init__.py lines 544-599).  It is parameterised
by the address filter `sip` so that the generic theorems hold for every
filter; the plugin instantiates it with `should_ignore_ip`. -/

/-- Remote-side eligibility (lines 558-568): for a remote line, the
hostname that gets recorded in hostname_to_line_index, if any.  The line
must not be a comment, must be non-empty after stripping, must contain a
literal space or tab, must split into more than one token, and its ip
must pass the address filter while neither token is in the ignore list. -/
def remoteEligible (sip : Str → Bool) (ig : List Str) (line : Str) : Option Str :=
  let ls := pyStrip line
  if ls.head? = some '#' then none
  else if ls = [] then none
  else if ¬ (' ' ∈ ls ∨ '\t' ∈ ls) then none
  else
    match tokensOf ls with
    | ipTok :: host :: _ =>
      if sip ipTok = false ∧ host ∉ ig ∧ ipTok ∉ ig then some host else none
    | _ => none

/-- Local-side eligibility (lines 571-580): for a raw local line, the
(hostname, stored line) pair recorded in local_updates, if any.  The line
is first stripped of a leading BOM and of surrounding whitespace; it is
skipped when it starts with '#', textually contains any ignore entry as a
substring, or is empty; then it must split into at least two tokens and
pass the same filter and exact ignore checks as the remote side. -/
def localEligible (sip : Str → Bool) (ig : List Str) (raw : Str) : Option (Str × Str) :=
  let l := pyStrip (dropBOM raw)
  if l.head? = some '#' ∨ (∃ ign ∈ ig, ign <:+: l) ∨ l = [] then none
  else
    match tokensOf l with
    | ipTok :: host :: _ =>
      if sip ipTok = false ∧ host ∉ ig ∧ ipTok ∉ ig then some (host, l) else none
    | _ => none

/-- Insertion into an insertion-ordered dictionary modelled as an
association list: assigning to an existing key replaces its value in
place, a new key is appended (Python dict semantics). -/
def dictInsert (d : List (Str × Str)) (k v : Str) : List (Str × Str) :=
  if k ∈ d.map Prod.fst then
    d.map (fun p => if p.1 = k then (k, v) else p)
  else d ++ [(k, v)]

/-- local_updates (lines 571-580): the insertion-ordered dictionary of
hostname to raw stored line collected from the local hosts lines; a later
occurrence of a hostname overwrites the value but keeps the key's
position. -/
def localUpdates (sip : Str → Bool) (ig : List Str) (localHosts : List Str) :
    List (Str × Str) :=
  localHosts.foldl
    (fun d raw =>
      match localEligible sip ig raw with
      | some (h, l) => dictInsert d h l
      | none => d)
    []

/-- hostname_to_line_index (lines 558-568) as a lookup function: the index
of the last remote line whose recorded hostname is `h` (a later line
overwrites the recorded index). -/
def lookupIdx (sip : Str → Bool) (ig : List Str) : List Str → Str → Option Nat
  | [], _ => none
  | line :: rest, h =>
    match lookupIdx sip ig rest h with
    | some i => some (i + 1)
    | none => if remoteEligible sip ig line = some h then some 0 else none

/-- The update loop (lines 583-592): for each (hostname, new_line) of the
update dictionary in order, overwrite the recorded line index if the
hostname was seen on the remote side, otherwise append the new line. -/
def applyUpdates (base : List Str) (idx : Str → Option Nat) (upds : List (Str × Str)) :
    List Str :=
  upds.foldl
    (fun acc p =>
      match idx p.1 with
      | some i => acc.set i p.2
      | none => acc ++ [p.2])
    base

/-- __merge_hosts_with_local (lines 544-599) with an explicit ignore list:
the output starts as a verbatim copy of the remote lines and is then
updated from the local lines.  (The try/except of the source cannot fire:
every operation in the body is total.) -/
def mergeHosts (sip : Str → Bool) (ig : List Str) (localHosts remoteHosts : List Str) :
    List Str :=
  applyUpdates remoteHosts (lookupIdx sip ig remoteHosts) (localUpdates sip ig localHosts)

/-- __merge_hosts_with_local as called by the plugin: the ignore list is
built from the pipe-delimited config value and the address filter is
__should_ignore_ip. -/
def mergeHostsWithLocal (ignoreCfg : Str) (localHosts remoteHosts : List Str) : List Str :=
  mergeHosts should_ignore_ip (mkIgnore ignoreCfg) localHosts remoteHosts

/- Path translation (src/plugins.v2/plexpartialscan/__init__.py,
translate_path, lines 855-1002). -/

/-- Python s.replace("\\", "/"): normalise every backslash to a slash. -/
def normSlash (s : Str) : Str := s.map (fun c => if c = '\\' then '/' else c)

/-- Append a trailing slash unless the string already ends with one
(the `if not p.endswith("/"): p += "/"` idiom of the source). -/
def ensureSlash (s : Str) : Str := if s.getLast? = some '/' then s else s ++ ['/']

/-- Python s.lstrip("/"): drop every leading slash. -/
def dropSlashes (s : Str) : Str := s.dropWhile (fun c => c = '/')

/-- Helper for replaceFirst: scan for the leftmost occurrence of the
non-empty pattern and substitute it. -/
def replaceFirstGo (old new : Str) : Str → Str
  | [] => []
  | c :: cs =>
    if old.isPrefixOf (c :: cs) then new ++ List.drop old.length (c :: cs)
    else c :: replaceFirstGo old new cs

/-- Python s.replace(old, new, 1): replace the first occurrence of old
(an empty pattern matches at the front, prepending new). -/
def replaceFirst (s old new : Str) : Str :=
  if old = [] then new ++ s else replaceFirstGo old new s

/-- The network-drive marker the source special-cases. -/
def markerU115 : Str := "【u115】".toList

/-- One line of the path_library_mapping configuration: a
local-path / remote-path / library-id triple. -/
structure PathLibRule where
  localPath : Str
  remotePath : Str
  library_id : Str
deriving DecidableEq

/-- The configuration state of the Plex scan plugin that translate_path
and the queue processing read.  Python keeps None or a possibly-empty
string in _path_mapping_local / _path_mapping_remote and only ever tests
them for truthiness, so both falsy values are modelled by the empty
string.  library_mapping is the insertion-ordered dict parsed from the
"movie:1,tv:2" configuration. -/
structure PSConfig where
  path_library_mapping : List PathLibRule
  path_mapping_local : Str
  path_mapping_remote : Str
  library_mapping : List (Str × Str)
deriving DecidableEq

/-- The triple-rule loop of translate_path (lines 874-894 and 959-976):
normalise the rule's prefixes, ensure the match pattern ends in a slash,
and on `startswith(local_prefix_match) or path == local_prefix` replace
the first occurrence of the local prefix and yield the rule's library id;
the first matching rule wins. -/
def findLibRule (rules : List PathLibRule) (pN : Str) : Option (Str × Str) :=
  match rules with
  | [] => none
  | r :: rs =>
    let lp := normSlash r.localPath
    let rp := normSlash r.remotePath
    if ensureSlash lp <+: pN ∨ pN = lp then some (replaceFirst pN lp rp, r.library_id)
    else findLibRule rs pN

/-- The "simple mode" tail of the marker branch (lines 941-954): ensure
the remote prefix ends in a slash, drop one leading slash from the
remainder and concatenate.  The argument is the current value of the
path_without_prefix variable, which the advanced branch may already have
normalised and stripped before falling through. -/
def simpleU115 (cfg : PSConfig) (pwp : Str) : Str × Option Str :=
  let rp := ensureSlash (normSlash cfg.path_mapping_remote)
  ((rp ++ (if pwp.head? = some '/' then pwp.drop 1 else pwp)), none)

/-- translate_path (lines 855-1002).  Every return statement of the
source yields a pair, modelled as `some`; the Option layer records that
the Python signature also admits an implicit None return that no branch
produces. -/
def translate_path (cfg : PSConfig) (local_path : Str) : Option (Str × Option Str) :=
  if markerU115 <+: local_path then
    let pwp := replaceFirst local_path markerU115 []
    match findLibRule cfg.path_library_mapping (normSlash pwp) with
    | some (rp, lib) => some (rp, some lib)
    | none =>
      if cfg.path_mapping_remote = [] then some (pwp, none)
      else if cfg.path_mapping_local ≠ [] then
        let lp := ensureSlash (normSlash cfg.path_mapping_local)
        let rp := ensureSlash (normSlash cfg.path_mapping_remote)
        let pwpN := normSlash pwp
        let pwp1 := if pwpN.head? = some '/' then pwpN.drop 1 else pwpN
        if dropSlashes lp <+: pwp1 then
          let r0 := replaceFirst pwp1 (dropSlashes lp) (dropSlashes rp)
          some ((if r0.head? = some '/' then r0 else '/' :: r0), none)
        else some (simpleU115 cfg pwp1)
      else some (simpleU115 cfg pwp)
  else
    match findLibRule cfg.path_library_mapping (normSlash local_path) with
    | some (rp, lib) => some (rp, some lib)
    | none =>
      if cfg.path_mapping_local = [] ∨ cfg.path_mapping_remote = [] then
        some (local_path, none)
      else
        let lpN := normSlash local_path
        let lp := ensureSlash (normSlash cfg.path_mapping_local)
        let rp := ensureSlash (normSlash cfg.path_mapping_remote)
        if lp <+: lpN then some (replaceFirst lpN lp rp, none)
        else some (lpN, none)

/-- The failure test of process_scan_queue, line 772:
`if not result or not result[0]`, true when translate_path returned
None or an empty remote path. -/
def scanFailCheck (res : Option (Str × Option Str)) : Bool :=
  match res with
  | none => true
  | some (q, _) => q.isEmpty

/- Scan-queue processing (process_scan_queue, lines 751-853, and the
library selection of trigger_plex_scan, lines 1046-1062 /
get_library_ids, lines 1104-1179). -/

/-- One entry of the in-memory scan queue (listen_transfer_complete,
lines 672-677).  The stored dict also carries the mediainfo object, used
only for notification text; the timestamp keeps distinct events unequal,
as distinct datetimes do in the source. -/
structure ScanItem where
  path : Str
  media_type : Option Str
  time : Nat
deriving DecidableEq

/-- Python truthiness of an optional string: None and "" are falsy. -/
def optTruthy (o : Option Str) : Bool :=
  match o with
  | none => false
  | some s => !s.isEmpty

/-- The media-file extensions recognised at line 779. -/
def mediaExts : List Str :=
  [".mp4".toList, ".mkv".toList, ".avi".toList, ".ts".toList, ".m2ts".toList]

/-- The scan directory of a translated path (lines 779-782): the parent
directory (with a trailing slash) when the path ends with a recognised
media extension, otherwise the path itself. -/
def scanDirOf (rp : Str) : Str :=
  if mediaExts.any (fun e => e.isSuffixOf rp) then
    List.intercalate ['/'] ((rp.splitOn '/').dropLast) ++ ['/']
  else rp

/-- Keyword tables of _detect_media_type_from_path (lines 728-749). -/
def movieKeys : List Str := ["/电影/".toList, "/movie".toList, "/movies/".toList]

/-- Anime keywords of _detect_media_type_from_path. -/
def animeKeys : List Str := ["/动漫/".toList, "/anime/".toList, "/动画/".toList]

/-- Television keywords of _detect_media_type_from_path. -/
def tvKeys : List Str :=
  ["/网盘剧/".toList, "/电视剧/".toList, "/tv/".toList, "/series/".toList, "/show".toList]

/-- _detect_media_type_from_path (lines 728-749): classify a path by
substring search over its lower-cased form, movie before anime before
television. -/
def detect_media_type_from_path (p : Str) : Option Str :=
  let pl := p.map Char.toLower
  if movieKeys.any (fun k => decide (k <:+: pl)) then some ("movie".toList)
  else if animeKeys.any (fun k => decide (k <:+: pl)) then some ("anime".toList)
  else if tvKeys.any (fun k => decide (k <:+: pl)) then some ("tv".toList)
  else none

/-- One value of the dir_map dictionary (lines 791-798): the grouped
items plus the media type and library id fixed when the group was
created. -/
structure DirInfo where
  items : List ScanItem
  media_type : Option Str
  library_id : Option Str
deriving DecidableEq

/-- dir_map insertion (lines 791-798): a new directory is appended with
the current item, media type and library id; an existing directory only
collects the item. -/
def dirInsert (dm : List (Str × DirInfo)) (sd : Str) (item : ScanItem)
    (mt lib : Option Str) : List (Str × DirInfo) :=
  if sd ∈ dm.map Prod.fst then
    dm.map (fun q =>
      if q.1 = sd then (q.1, ⟨q.2.items ++ [item], q.2.media_type, q.2.library_id⟩) else q)
  else dm ++ [(sd, ⟨[item], mt, lib⟩)]

/-- The grouping loop of process_scan_queue (lines 765-802): translate
each queued path, skip it when the caller's failure test fires, derive
the scan directory, let a detected path type override the queued media
type, and group by directory. -/
def buildDirMap (cfg : PSConfig) (snapshot : List ScanItem) : List (Str × DirInfo) :=
  snapshot.foldl
    (fun dm item =>
      match translate_path cfg item.path with
      | none => dm
      | some (rp, lib) =>
        if rp.isEmpty then dm
        else
          let sd := scanDirOf rp
          let mt :=
            match detect_media_type_from_path sd with
            | some t => some t
            | none => item.media_type
          dirInsert dm sd item mt lib)
    []

/-- Dictionary lookup by key, first match (keys are unique in dicts
built by dictInsert). -/
def lookupKV (d : List (Str × Str)) (k : Str) : Option Str :=
  (d.find? (fun p => p.1 == k)).map Prod.snd

/-- The media-type normalisation table of get_library_id
(lines 1157-1165). -/
def typeMappingTable : List (Str × Str) :=
  [("movie".toList, "movie".toList), ("电影".toList, "movie".toList),
   ("movies".toList, "movie".toList), ("tv".toList, "tv".toList),
   ("电视剧".toList, "tv".toList), ("series".toList, "tv".toList),
   ("show".toList, "tv".toList)]

/-- get_library_id (lines 1143-1179): a falsy media type yields the first
configured library; otherwise the lower-cased, table-normalised type is
looked up in the library mapping, falling back to the first configured
library when the lookup result is falsy. -/
def get_library_id (lm : List (Str × Str)) (mt : Option Str) : Option Str :=
  if optTruthy mt = false then (lm.head?).map Prod.snd
  else
    let tl := (mt.getD []).map Char.toLower
    let mapped := (lookupKV typeMappingTable tl).getD tl
    let lid := lookupKV lm mapped
    if optTruthy lid then lid
    else
      match lm.head? with
      | some q => some q.2
      | none => lid

/-- get_library_ids (lines 1104-1121): no configured mapping yields no
libraries; a truthy media type yields the single truthy get_library_id
result or nothing; a falsy media type yields every configured library. -/
def get_library_ids (lm : List (Str × Str)) (mt : Option Str) : List Str :=
  if lm.isEmpty then []
  else if optTruthy mt then
    match get_library_id lm mt with
    | some lid => if lid.isEmpty then [] else [lid]
    | none => []
  else lm.map Prod.snd

/-- The library selection of trigger_plex_scan (lines 1057-1062): a
truthy explicit library id is used alone, otherwise the media-type table
decides. -/
def triggerLibs (lm : List (Str × Str)) (mt lib : Option Str) : List Str :=
  if optTruthy lib then [lib.getD []] else get_library_ids lm mt

/-- The per-directory loop of process_scan_queue (lines 807-853).  Each
directory entry first invokes trigger_plex_scan (recorded as a call with
the library ids it targets; the optional rclone cache refresh has no
effect on the queue or the calls and is not recorded).  The source then
runs `self._scan_queue.remove(scan_item)` where scan_item is the stale
loop variable of the grouping loop, i.e. the last snapshot entry:
when that entry is still queued it is removed, otherwise list.remove
raises ValueError, the except handler's identical remove raises again,
and the exception escapes the loop (crash flag), leaving the queue as it
was and the remaining directories unprocessed. -/
def processDirs (lm : List (Str × Str)) (lastIt : ScanItem) :
    List (Str × DirInfo) → List ScanItem → List (Str × List Str) →
      List ScanItem × List (Str × List Str) × Bool
  | [], q, acc => (q, acc, false)
  | (sd, info) :: rest, q, acc =>
    let acc' := acc ++ [(sd, triggerLibs lm info.media_type info.library_id)]
    if lastIt ∈ q then processDirs lm lastIt rest (q.erase lastIt) acc'
    else (q, acc', true)

/-- process_scan_queue (lines 751-853): on a non-empty queue, group the
snapshot by scan directory and run the per-directory loop.  The result is
the final queue, the sequence of trigger_plex_scan calls (directory and
targeted library ids), and whether a ValueError escaped. -/
def process_scan_queue (cfg : PSConfig) (queue : List ScanItem) :
    List ScanItem × List (Str × List Str) × Bool :=
  if queue.isEmpty then (queue, [], false)
  else
    match queue.getLast? with
    | none => (queue, [], false)
    | some lastIt => processDirs cfg.library_mapping lastIt (buildDirMap cfg queue) queue []

/- List helper lemmas used by the merge development. -/

theorem set_of_getElem? {α : Type} {l : List α} {i : Nat} {a : α}
    (h : l[i]? = some a) : l.set i a = l := by
  induction l generalizing i with
  | nil => simp at h
  | cons x xs ih =>
    cases i with
    | zero => simp at h; simp [h]
    | succ i => simp at h ⊢; exact ih h

theorem head?_dropWhile_not {α : Type} {p : α → Bool} {l : List α} {c : α}
    (h : (l.dropWhile p).head? = some c) : p c = false := by
  induction l with
  | nil => simp at h
  | cons x xs ih =>
    by_cases hx : p x
    · rw [List.dropWhile_cons_of_pos hx] at h; exact ih h
    · rw [List.dropWhile_cons_of_neg hx] at h
      simp at h
      subst h
      simpa using hx

theorem dropWhile_eq_self_of_head {α : Type} {p : α → Bool} {l : List α}
    (h : ∀ c, l.head? = some c → p c = false) : l.dropWhile p = l := by
  cases l with
  | nil => rfl
  | cons x xs =>
    have := h x rfl
    simp [List.dropWhile_cons, this]

theorem getLast?_of_suffix {α : Type} {l₁ l₂ : List α} (h : l₁ <:+ l₂) (hne : l₁ ≠ []) :
    l₂.getLast? = l₁.getLast? := by
  obtain ⟨w, rfl⟩ := h
  exact List.getLast?_append_of_ne_nil w hne

/-- The head of a stripped string is not whitespace. -/
theorem pyStrip_head {s : Str} {c : Char} (h : (pyStrip s).head? = some c) :
    isPySpace c = false := by
  unfold pyStrip at h
  rw [List.head?_reverse] at h
  have hsfx : (s.dropWhile isPySpace).reverse.dropWhile isPySpace <:+
      (s.dropWhile isPySpace).reverse := List.dropWhile_suffix _
  have hne : (s.dropWhile isPySpace).reverse.dropWhile isPySpace ≠ [] := by
    intro hz; rw [hz] at h; simp at h
  have := getLast?_of_suffix hsfx hne
  rw [← this] at h
  rw [List.getLast?_reverse] at h
  exact head?_dropWhile_not h

/-- The last character of a stripped string is not whitespace. -/
theorem pyStrip_getLast {s : Str} {c : Char} (h : (pyStrip s).getLast? = some c) :
    isPySpace c = false := by
  unfold pyStrip at h
  rw [List.getLast?_reverse] at h
  exact head?_dropWhile_not h

/-- Stripping is idempotent. -/
theorem pyStrip_idem (s : Str) : pyStrip (pyStrip s) = pyStrip s := by
  have h1 : (pyStrip s).dropWhile isPySpace = pyStrip s :=
    dropWhile_eq_self_of_head (fun c hc => pyStrip_head hc)
  show (((pyStrip s).dropWhile isPySpace).reverse.dropWhile isPySpace).reverse = pyStrip s
  rw [h1]
  have h2 : (pyStrip s).reverse.dropWhile isPySpace = (pyStrip s).reverse := by
    refine dropWhile_eq_self_of_head (fun c hc => ?_)
    rw [List.head?_reverse] at hc
    exact pyStrip_getLast hc
  rw [h2, List.reverse_reverse]

/- Characterisation of lookupIdx: it returns the index of the last
eligible occurrence of a hostname. -/

theorem lookupIdx_lt {sip : Str → Bool} {ig : List Str} {ls : List Str} {h : Str} {i : Nat}
    (he : lookupIdx sip ig ls h = some i) : i < ls.length := by
  induction ls generalizing i with
  | nil => simp [lookupIdx] at he
  | cons x xs ih =>
    unfold lookupIdx at he
    cases hxs : lookupIdx sip ig xs h with
    | some j =>
      rw [hxs] at he
      simp at he
      subst he
      have := ih hxs
      simp
      omega
    | none =>
      rw [hxs] at he
      by_cases hx : remoteEligible sip ig x = some h
      · simp [hx] at he; subst he; simp
      · simp [hx] at he

theorem lookupIdx_get {sip : Str → Bool} {ig : List Str} {ls : List Str} {h : Str} {i : Nat}
    (he : lookupIdx sip ig ls h = some i) :
    ∃ line, ls[i]? = some line ∧ remoteEligible sip ig line = some h := by
  induction ls generalizing i with
  | nil => simp [lookupIdx] at he
  | cons x xs ih =>
    unfold lookupIdx at he
    cases hxs : lookupIdx sip ig xs h with
    | some j =>
      rw [hxs] at he
      simp at he
      subst he
      obtain ⟨line, h1, h2⟩ := ih hxs
      exact ⟨line, by simpa using h1, h2⟩
    | none =>
      rw [hxs] at he
      by_cases hx : remoteEligible sip ig x = some h
      · simp [hx] at he; subst he; exact ⟨x, by simp, hx⟩
      · simp [hx] at he

theorem lookupIdx_none {sip : Str → Bool} {ig : List Str} {ls : List Str} {h : Str}
    (he : lookupIdx sip ig ls h = none) :
    ∀ (j : Nat) (line : Str), ls[j]? = some line → remoteEligible sip ig line ≠ some h := by
  induction ls with
  | nil => intro j line hj; simp at hj
  | cons x xs ih =>
    unfold lookupIdx at he
    cases hxs : lookupIdx sip ig xs h with
    | some j => rw [hxs] at he; simp at he
    | none =>
      rw [hxs] at he
      by_cases hx : remoteEligible sip ig x = some h
      · simp [hx] at he
      · intro j line hj
        cases j with
        | zero => simp at hj; subst hj; exact hx
        | succ j => simp at hj; exact ih hxs j line hj

theorem lookupIdx_last {sip : Str → Bool} {ig : List Str} {ls : List Str} {h : Str} {i : Nat}
    (he : lookupIdx sip ig ls h = some i) :
    ∀ (j : Nat) (line : Str), i < j → ls[j]? = some line →
      remoteEligible sip ig line ≠ some h := by
  induction ls generalizing i with
  | nil => simp [lookupIdx] at he
  | cons x xs ih =>
    unfold lookupIdx at he
    cases hxs : lookupIdx sip ig xs h with
    | some j' =>
      rw [hxs] at he
      simp at he
      subst he
      intro j line hij hj
      cases j with
      | zero => omega
      | succ j => simp at hj; exact ih hxs j line (by omega) hj
    | none =>
      rw [hxs] at he
      by_cases hx : remoteEligible sip ig x = some h
      · simp [hx] at he
        subst he
        intro j line hij hj
        cases j with
        | zero => omega
        | succ j => simp at hj; exact lookupIdx_none hxs j line hj
      · simp [hx] at he

theorem lookupIdx_none_intro {sip : Str → Bool} {ig : List Str} {ls : List Str} {h : Str}
    (he : ∀ (j : Nat) (line : Str), ls[j]? = some line → remoteEligible sip ig line ≠ some h) :
    lookupIdx sip ig ls h = none := by
  induction ls with
  | nil => rfl
  | cons x xs ih =>
    unfold lookupIdx
    have hxs : lookupIdx sip ig xs h = none :=
      ih (fun j line hj => he (j + 1) line (by simpa using hj))
    rw [hxs]
    have hx : remoteEligible sip ig x ≠ some h := he 0 x (by simp)
    simp [hx]

theorem lookupIdx_intro {sip : Str → Bool} {ig : List Str} {ls : List Str} {h : Str} {i : Nat}
    {line : Str} (h1 : ls[i]? = some line) (h2 : remoteEligible sip ig line = some h)
    (h3 : ∀ (j : Nat) (l' : Str), i < j → ls[j]? = some l' →
      remoteEligible sip ig l' ≠ some h) :
    lookupIdx sip ig ls h = some i := by
  induction ls generalizing i with
  | nil => simp at h1
  | cons x xs ih =>
    unfold lookupIdx
    cases i with
    | zero =>
      simp at h1
      subst h1
      have hxs : lookupIdx sip ig xs h = none := by
        refine lookupIdx_none_intro (fun j l' hj => ?_)
        exact h3 (j + 1) l' (by omega) (by simpa using hj)
      rw [hxs]
      simp [h2]
    | succ i =>
      simp at h1
      have hxs : lookupIdx sip ig xs h = some i :=
        ih h1 (fun j l' hij hj => h3 (j + 1) l' (by omega) (by simpa using hj))
      rw [hxs]

theorem lookupIdx_append_some {sip : Str → Bool} {ig : List Str} {t : List Str} {h : Str}
    {i : Nat} (l : List Str) (ht : lookupIdx sip ig t h = some i) :
    lookupIdx sip ig (l ++ t) h = some (l.length + i) := by
  induction l with
  | nil => simpa using ht
  | cons x xs ih =>
    show lookupIdx sip ig (x :: (xs ++ t)) h = _
    unfold lookupIdx
    rw [ih]
    simp
    omega

theorem lookupIdx_append_none {sip : Str → Bool} {ig : List Str} {t : List Str} {h : Str}
    (l : List Str) (ht : lookupIdx sip ig t h = none) :
    lookupIdx sip ig (l ++ t) h = lookupIdx sip ig l h := by
  induction l with
  | nil => simpa using ht
  | cons x xs ih =>
    show lookupIdx sip ig (x :: (xs ++ t)) h = lookupIdx sip ig (x :: xs) h
    unfold lookupIdx
    rw [ih]

/- Decomposition of the update loop: the output is the overwritten copy
of the base followed by the appended new entries. -/

/-- Only the in-place overwrites of the update loop. -/
def setPart (idx : Str → Option Nat) (upds : List (Str × Str)) (base : List Str) :
    List Str :=
  upds.foldl
    (fun acc p =>
      match idx p.1 with
      | some i => acc.set i p.2
      | none => acc)
    base

/-- Only the appended new entries of the update loop, in order. -/
def newVals (idx : Str → Option Nat) (upds : List (Str × Str)) : List Str :=
  (upds.filter (fun p => (idx p.1).isNone)).map Prod.snd

theorem setPart_cons_some {idx : Str → Option Nat} {p : Str × Str} {i : Nat}
    (ps : List (Str × Str)) (base : List Str) (hp : idx p.1 = some i) :
    setPart idx (p :: ps) base = setPart idx ps (base.set i p.2) := by
  show setPart idx ps (match idx p.1 with | some i => base.set i p.2 | none => base) = _
  rw [hp]

theorem setPart_cons_none {idx : Str → Option Nat} {p : Str × Str}
    (ps : List (Str × Str)) (base : List Str) (hp : idx p.1 = none) :
    setPart idx (p :: ps) base = setPart idx ps base := by
  show setPart idx ps (match idx p.1 with | some i => base.set i p.2 | none => base) = _
  rw [hp]

theorem applyUpdates_cons_some {idx : Str → Option Nat} {p : Str × Str} {i : Nat}
    (ps : List (Str × Str)) (base : List Str) (hp : idx p.1 = some i) :
    applyUpdates base idx (p :: ps) = applyUpdates (base.set i p.2) idx ps := by
  show applyUpdates
      (match idx p.1 with | some i => base.set i p.2 | none => base ++ [p.2]) idx ps = _
  rw [hp]

theorem applyUpdates_cons_none {idx : Str → Option Nat} {p : Str × Str}
    (ps : List (Str × Str)) (base : List Str) (hp : idx p.1 = none) :
    applyUpdates base idx (p :: ps) = applyUpdates (base ++ [p.2]) idx ps := by
  show applyUpdates
      (match idx p.1 with | some i => base.set i p.2 | none => base ++ [p.2]) idx ps = _
  rw [hp]

theorem setPart_length (idx : Str → Option Nat) (upds : List (Str × Str))
    (base : List Str) : (setPart idx upds base).length = base.length := by
  induction upds generalizing base with
  | nil => rfl
  | cons p ps ih =>
    cases hp : idx p.1 with
    | some i => rw [setPart_cons_some ps base hp, ih]; simp
    | none => rw [setPart_cons_none ps base hp]; exact ih base

theorem setPart_append (idx : Str → Option Nat) (upds : List (Str × Str))
    (base t : List Str)
    (hb : ∀ p ∈ upds, ∀ i : Nat, idx p.1 = some i → i < base.length) :
    setPart idx upds (base ++ t) = setPart idx upds base ++ t := by
  induction upds generalizing base with
  | nil => rfl
  | cons p ps ih =>
    cases hp : idx p.1 with
    | some i =>
      rw [setPart_cons_some ps (base ++ t) hp, setPart_cons_some ps base hp]
      have hi : i < base.length := hb p (by simp) i hp
      rw [List.set_append_left _ _ hi]
      refine ih (base.set i p.2) (fun q hq j hj => ?_)
      rw [List.length_set]
      exact hb q (by simp [hq]) j hj
    | none =>
      rw [setPart_cons_none ps (base ++ t) hp, setPart_cons_none ps base hp]
      exact ih base (fun q hq j hj => hb q (by simp [hq]) j hj)

theorem applyUpdates_decomp (idx : Str → Option Nat) (upds : List (Str × Str))
    (base : List Str)
    (hb : ∀ p ∈ upds, ∀ i : Nat, idx p.1 = some i → i < base.length) :
    applyUpdates base idx upds = setPart idx upds base ++ newVals idx upds := by
  induction upds generalizing base with
  | nil => simp [applyUpdates, setPart, newVals]
  | cons p ps ih =>
    cases hp : idx p.1 with
    | some i =>
      rw [applyUpdates_cons_some ps base hp, setPart_cons_some ps base hp]
      have hrec := ih (base.set i p.2)
        (fun q hq j hj => by rw [List.length_set]; exact hb q (by simp [hq]) j hj)
      rw [hrec]
      have h2 : newVals idx (p :: ps) = newVals idx ps := by
        unfold newVals
        rw [List.filter_cons]
        simp [hp]
      rw [h2]
    | none =>
      rw [applyUpdates_cons_none ps base hp, setPart_cons_none ps base hp]
      have hrec := ih (base ++ [p.2])
        (fun q hq j hj => by
          have := hb q (by simp [hq]) j hj
          simp
          omega)
      rw [hrec]
      have h1 : setPart idx ps (base ++ [p.2]) = setPart idx ps base ++ [p.2] :=
        setPart_append idx ps base [p.2] (fun q hq j hj => hb q (by simp [hq]) j hj)
      have h2 : newVals idx (p :: ps) = p.2 :: newVals idx ps := by
        unfold newVals
        rw [List.filter_cons]
        simp [hp]
      rw [h1, h2, List.append_assoc]
      rfl

theorem setPart_get_untouched (idx : Str → Option Nat) (upds : List (Str × Str))
    (base : List Str) (j : Nat) (hu : ∀ p ∈ upds, idx p.1 ≠ some j) :
    (setPart idx upds base)[j]? = base[j]? := by
  induction upds generalizing base with
  | nil => rfl
  | cons p ps ih =>
    cases hp : idx p.1 with
    | some i =>
      rw [setPart_cons_some ps base hp]
      have hij : i ≠ j := by
        intro hij
        exact hu p (by simp) (by rw [hp, hij])
      rw [ih (base.set i p.2) (fun q hq => hu q (by simp [hq]))]
      exact List.getElem?_set_ne hij
    | none =>
      rw [setPart_cons_none ps base hp]
      exact ih base (fun q hq => hu q (by simp [hq]))

theorem setPart_get_hit (idx : Str → Option Nat) (upds : List (Str × Str))
    (base : List Str) (j : Nat) (v : Str) (hj : j < base.length)
    (hex : ∃ p ∈ upds, idx p.1 = some j)
    (hval : ∀ p ∈ upds, idx p.1 = some j → p.2 = v) :
    (setPart idx upds base)[j]? = some v := by
  induction upds generalizing base with
  | nil => simp at hex
  | cons p ps ih =>
    cases hp : idx p.1 with
    | some i =>
      rw [setPart_cons_some ps base hp]
      by_cases hij : i = j
      · subst hij
        have hpv : p.2 = v := hval p (by simp) hp
        by_cases hex' : ∃ q ∈ ps, idx q.1 = some i
        · exact ih (base.set i p.2) (by simpa using hj) hex'
            (fun q hq hqi => hval q (by simp [hq]) hqi)
        · push_neg at hex'
          rw [setPart_get_untouched idx ps _ i (fun q hq hqi => hex' q hq hqi)]
          rw [List.getElem?_set_self (by simpa using hj)]
          rw [hpv]
      · have hex' : ∃ q ∈ ps, idx q.1 = some j := by
          obtain ⟨q, hq, hqj⟩ := hex
          rcases List.mem_cons.mp hq with rfl | hq'
          · rw [hp] at hqj; simp at hqj; omega
          · exact ⟨q, hq', hqj⟩
        exact ih (base.set i p.2) (by simpa using hj) hex'
          (fun q hq hqj => hval q (by simp [hq]) hqj)
    | none =>
      rw [setPart_cons_none ps base hp]
      have hex' : ∃ q ∈ ps, idx q.1 = some j := by
        obtain ⟨q, hq, hqj⟩ := hex
        rcases List.mem_cons.mp hq with rfl | hq'
        · rw [hp] at hqj; simp at hqj
        · exact ⟨q, hq', hqj⟩
      exact ih base hj hex' (fun q hq hqj => hval q (by simp [hq]) hqj)

/- Properties of the update dictionary. -/

theorem dictInsert_keys (d : List (Str × Str)) (k v : Str) :
    (dictInsert d k v).map Prod.fst =
      if k ∈ d.map Prod.fst then d.map Prod.fst else d.map Prod.fst ++ [k] := by
  unfold dictInsert
  by_cases hk : k ∈ d.map Prod.fst
  · simp only [hk, if_pos]
    rw [List.map_map]
    refine List.map_congr_left (fun p _ => ?_)
    by_cases hp : p.1 = k
    · simp [hp]
    · simp [hp]
  · simp [hk]

theorem dictInsert_mem {d : List (Str × Str)} {k v : Str} {p : Str × Str}
    (h : p ∈ dictInsert d k v) : p ∈ d ∨ p = (k, v) := by
  unfold dictInsert at h
  by_cases hk : k ∈ d.map Prod.fst
  · simp only [hk, if_pos] at h
    obtain ⟨q, hq, hqe⟩ := List.mem_map.mp h
    by_cases hq1 : q.1 = k
    · simp [hq1] at hqe; right; exact hqe.symm
    · simp [hq1] at hqe; left; rwa [← hqe]
  · simp only [hk, if_neg, not_false_iff] at h
    rcases List.mem_append.mp h with h' | h'
    · left; exact h'
    · right; simpa using h'

theorem localUpdates_keys_nodup (sip : Str → Bool) (ig : List Str) (L : List Str) :
    ((localUpdates sip ig L).map Prod.fst).Nodup := by
  suffices hgen : ∀ d : List (Str × Str), (d.map Prod.fst).Nodup →
      ((L.foldl (fun d raw =>
        match localEligible sip ig raw with
        | some (h, l) => dictInsert d h l
        | none => d) d).map Prod.fst).Nodup by
    exact hgen [] (by simp)
  induction L with
  | nil => intro d hd; exact hd
  | cons raw L ih =>
    intro d hd
    show ((L.foldl _ (match localEligible sip ig raw with
      | some (h, l) => dictInsert d h l
      | none => d)).map Prod.fst).Nodup
    cases he : localEligible sip ig raw with
    | some hl =>
      obtain ⟨h, l⟩ := hl
      refine ih (dictInsert d h l) ?_
      rw [dictInsert_keys]
      by_cases hk : h ∈ d.map Prod.fst
      · simpa [hk] using hd
      · simp only [hk, if_neg, not_false_iff]
        rw [List.nodup_append]
        refine ⟨hd, List.nodup_singleton _, ?_⟩
        intro a ha hb
        simp at hb
        subst hb
        exact hk ha
    | none => exact ih d hd

theorem localUpdates_mem_keys (sip : Str → Bool) (ig : List Str) (L : List Str) (h : Str) :
    h ∈ (localUpdates sip ig L).map Prod.fst ↔
      h ∈ L.filterMap (fun raw => (localEligible sip ig raw).map Prod.fst) := by
  suffices hgen : ∀ d : List (Str × Str),
      (h ∈ (L.foldl (fun d raw =>
        match localEligible sip ig raw with
        | some (h, l) => dictInsert d h l
        | none => d) d).map Prod.fst ↔
        h ∈ d.map Prod.fst ∨
          h ∈ L.filterMap (fun raw => (localEligible sip ig raw).map Prod.fst)) by
    simpa using hgen []
  induction L with
  | nil => intro d; simp
  | cons raw L ih =>
    intro d
    show h ∈ (L.foldl _ (match localEligible sip ig raw with
      | some (h, l) => dictInsert d h l
      | none => d)).map Prod.fst ↔ _
    cases he : localEligible sip ig raw with
    | some hl =>
      obtain ⟨h', l⟩ := hl
      rw [ih (dictInsert d h' l)]
      rw [dictInsert_keys]
      simp only [List.filterMap_cons, he, Option.map_some]
      by_cases hk : h' ∈ d.map Prod.fst
      · simp only [hk, if_pos]
        constructor
        · rintro (hm | hm)
          · exact Or.inl hm
          · exact Or.inr (by simp [hm])
        · rintro (hm | hm)
          · exact Or.inl hm
          · rcases List.mem_cons.mp hm with rfl | hm'
            · exact Or.inl hk
            · exact Or.inr hm'
      · simp only [hk, if_neg, not_false_iff]
        constructor
        · rintro (hm | hm)
          · rcases List.mem_append.mp hm with hm' | hm'
            · exact Or.inl hm'
            · exact Or.inr (by simpa using Or.inl (by simpa using hm'))
          · exact Or.inr (by simp [hm])
        · rintro (hm | hm)
          · exact Or.inl (List.mem_append.mpr (Or.inl hm))
          · rcases List.mem_cons.mp hm with rfl | hm'
            · exact Or.inl (List.mem_append.mpr (Or.inr (by simp)))
            · exact Or.inr hm'
    | none =>
      rw [ih d]
      simp [List.filterMap_cons, he]

theorem localUpdates_pair {sip : Str → Bool} {ig : List Str} {L : List Str}
    {p : Str × Str} (hp : p ∈ localUpdates sip ig L) :
    ∃ raw ∈ L, localEligible sip ig raw = some p := by
  suffices hgen : ∀ d : List (Str × Str),
      p ∈ (L.foldl (fun d raw =>
        match localEligible sip ig raw with
        | some (h, l) => dictInsert d h l
        | none => d) d) →
      p ∈ d ∨ ∃ raw ∈ L, localEligible sip ig raw = some p by
    rcases hgen [] hp with h | h
    · simp at h
    · exact h
  clear hp
  induction L with
  | nil => intro d hd; exact Or.inl hd
  | cons raw L ih =>
    intro d hd
    have hd' : p ∈ (L.foldl _ (match localEligible sip ig raw with
      | some (h, l) => dictInsert d h l
      | none => d)) := hd
    cases he : localEligible sip ig raw with
    | some hl =>
      obtain ⟨h', l⟩ := hl
      rw [he] at hd'
      rcases ih (dictInsert d h' l) hd' with hm | hm
      · rcases dictInsert_mem hm with hm' | hm'
        · exact Or.inl hm'
        · exact Or.inr ⟨raw, by simp, by rw [he, hm']⟩
      · obtain ⟨raw', hr, hr2⟩ := hm
        exact Or.inr ⟨raw', by simp [hr], hr2⟩
    | none =>
      rw [he] at hd'
      rcases ih d hd' with hm | hm
      · exact Or.inl hm
      · obtain ⟨raw', hr, hr2⟩ := hm
        exact Or.inr ⟨raw', by simp [hr], hr2⟩

/- Inversion of eligibility and the bridge from local to remote
eligibility. -/

theorem localEligible_inv {sip : Str → Bool} {ig : List Str} {raw h v : Str}
    (he : localEligible sip ig raw = some (h, v)) :
    v = pyStrip (dropBOM raw) ∧ ¬ v.head? = some '#' ∧ (∀ ign ∈ ig, ¬ ign <:+: v) ∧
      v ≠ [] ∧ ∃ ipTok rest, tokensOf v = ipTok :: h :: rest ∧ sip ipTok = false ∧
        h ∉ ig ∧ ipTok ∉ ig := by
  unfold localEligible at he
  by_cases hc : (pyStrip (dropBOM raw)).head? = some '#' ∨
      (∃ ign ∈ ig, ign <:+: pyStrip (dropBOM raw)) ∨ pyStrip (dropBOM raw) = []
  · simp only [hc, if_pos] at he
    cases he
  · simp only [hc, if_neg, not_false_iff] at he
    push_neg at hc
    obtain ⟨hc1, hc2, hc3⟩ := hc
    rcases htok : tokensOf (pyStrip (dropBOM raw)) with _ | ⟨ipTok, _ | ⟨host, rest⟩⟩
    · rw [htok] at he; simp at he
    · rw [htok] at he; simp at he
    · rw [htok] at he
      by_cases hcond : sip ipTok = false ∧ host ∉ ig ∧ ipTok ∉ ig
      · simp only [hcond, if_pos] at he
        have hpair := Option.some.inj he
        have h1 : host = h := congrArg Prod.fst hpair
        have h2 : pyStrip (dropBOM raw) = v := congrArg Prod.snd hpair
        subst h1
        subst h2
        exact ⟨rfl, hc1, hc2, hc3, ipTok, rest, htok, hcond.1, hcond.2.1, hcond.2.2⟩
      · simp [hcond] at he

/-- A stored local update line that contains a literal space or tab is a
remote-eligible line recording the same hostname: this is what makes the
merge idempotent on such lines. -/
theorem localEligible_remote {sip : Str → Bool} {ig : List Str} {raw h v : Str}
    (he : localEligible sip ig raw = some (h, v)) (hsp : ' ' ∈ v ∨ '\t' ∈ v) :
    remoteEligible sip ig v = some h := by
  obtain ⟨hv, hc1, _, hc3, ipTok, rest, htok, hf1, hf2, hf3⟩ := localEligible_inv he
  have hstrip : pyStrip v = v := by rw [hv, pyStrip_idem]
  unfold remoteEligible
  rw [hstrip]
  simp only [hc1, if_neg, not_false_iff, hc3]
  have hsp' : ¬ ¬ (' ' ∈ v ∨ '\t' ∈ v) := not_not_intro hsp
  simp only [hsp', if_neg, not_false_iff]
  rw [htok]
  simp [hf1, hf2, hf3]

/-- In a list of pairs with distinct keys, a key determines its pair. -/
theorem nodup_keys_pair {U : List (Str × Str)} (hnd : (U.map Prod.fst).Nodup)
    {p q : Str × Str} (hp : p ∈ U) (hq : q ∈ U) (h1 : p.1 = q.1) : p = q := by
  induction U with
  | nil => simp at hp
  | cons r U ih =>
    rw [List.map_cons, List.nodup_cons] at hnd
    rcases List.mem_cons.mp hp with rfl | hp' <;> rcases List.mem_cons.mp hq with rfl | hq'
    · rfl
    · exact absurd (h1 ▸ List.mem_map_of_mem Prod.fst hq') hnd.1
    · exact absurd (h1 ▸ List.mem_map_of_mem Prod.fst hp') hnd.1
    · exact ih hnd.2 hp' hq'

theorem getElem?_append_plus {α : Type} (l t : List α) (k : Nat) :
    (l ++ t)[l.length + k]? = t[k]? := by
  rw [List.getElem?_append_right (by omega)]
  congr 1
  omega

/-- Looking up a hostname among the appended values of a distinct-key,
remote-eligible pair list finds that pair's value. -/
theorem lookupIdx_vals {sip : Str → Bool} {ig : List Str} {W : List (Str × Str)}
    (hnd : (W.map Prod.fst).Nodup)
    (hgood : ∀ q ∈ W, remoteEligible sip ig q.2 = some q.1)
    {p : Str × Str} (hp : p ∈ W) :
    ∃ k : Nat, lookupIdx sip ig (W.map Prod.snd) p.1 = some k ∧
      (W.map Prod.snd)[k]? = some p.2 := by
  induction W with
  | nil => simp at hp
  | cons r W ih =>
    rw [List.map_cons, List.nodup_cons] at hnd
    rcases List.mem_cons.mp hp with rfl | hp'
    · have hnone : lookupIdx sip ig (W.map Prod.snd) p.1 = none := by
        refine lookupIdx_none_intro (fun j line hj => ?_)
        have hline : line ∈ W.map Prod.snd := List.getElem?_mem hj
        obtain ⟨q, hq, rfl⟩ := List.mem_map.mp hline
        rw [hgood q (by simp [hq])]
        intro hcontra
        have : q.1 = p.1 := Option.some.inj hcontra
        exact hnd.1 (this ▸ List.mem_map_of_mem Prod.fst hq)
      refine ⟨0, ?_, by simp⟩
      show lookupIdx sip ig (p.2 :: W.map Prod.snd) p.1 = some 0
      unfold lookupIdx
      rw [hnone, hgood p (by simp)]
      simp
    · obtain ⟨k, hk1, hk2⟩ := ih hnd.2 (fun q hq => hgood q (by simp [hq])) hp'
      refine ⟨k + 1, ?_, by simpa using hk2⟩
      show lookupIdx sip ig (r.2 :: W.map Prod.snd) p.1 = some (k + 1)
      unfold lookupIdx
      rw [hk1]

/-- In the merged output, every update pair's hostname looks up to the
position that holds exactly that pair's line, provided each stored line
is remote-eligible for its hostname. -/
theorem merge_get_pair (sip : Str → Bool) (ig : List Str) (L R : List Str)
    (hU : ∀ p ∈ localUpdates sip ig L, remoteEligible sip ig p.2 = some p.1) :
    ∀ p ∈ localUpdates sip ig L, ∃ pos : Nat,
      lookupIdx sip ig (mergeHosts sip ig L R) p.1 = some pos ∧
        (mergeHosts sip ig L R)[pos]? = some p.2 := by
  intro p hp
  have hnd := localUpdates_keys_nodup sip ig L
  have hbound : ∀ q ∈ localUpdates sip ig L, ∀ i : Nat,
      lookupIdx sip ig R q.1 = some i → i < R.length :=
    fun q _ i hi => lookupIdx_lt hi
  have hdecomp : mergeHosts sip ig L R =
      setPart (lookupIdx sip ig R) (localUpdates sip ig L) R ++
        newVals (lookupIdx sip ig R) (localUpdates sip ig L) :=
    applyUpdates_decomp _ _ _ hbound
  have hSlen : (setPart (lookupIdx sip ig R) (localUpdates sip ig L) R).length = R.length :=
    setPart_length _ _ _
  have huniq : ∀ (j : Nat), ∀ q ∈ localUpdates sip ig L, ∀ q' ∈ localUpdates sip ig L,
      lookupIdx sip ig R q.1 = some j → lookupIdx sip ig R q'.1 = some j → q = q' := by
    intro j q hq q' hq' hjq hjq'
    obtain ⟨line, hl1, hl2⟩ := lookupIdx_get hjq
    obtain ⟨line', hl1', hl2'⟩ := lookupIdx_get hjq'
    rw [hl1] at hl1'
    have hline : line = line' := Option.some.inj hl1'
    subst hline
    rw [hl2] at hl2'
    exact nodup_keys_pair hnd hq hq' (Option.some.inj hl2')
  cases hidx : lookupIdx sip ig R p.1 with
  | some i =>
    have hiR : i < R.length := lookupIdx_lt hidx
    have hval : ∀ q ∈ localUpdates sip ig L, lookupIdx sip ig R q.1 = some i → q.2 = p.2 :=
      fun q hq hqi => congrArg Prod.snd (huniq i q hq p hp hqi hidx)
    have hSi : (setPart (lookupIdx sip ig R) (localUpdates sip ig L) R)[i]? = some p.2 :=
      setPart_get_hit _ _ _ i p.2 hiR ⟨p, hp, hidx⟩ hval
    have hlast : ∀ (j : Nat) (l' : Str), i < j →
        (setPart (lookupIdx sip ig R) (localUpdates sip ig L) R)[j]? = some l' →
        remoteEligible sip ig l' ≠ some p.1 := by
      intro j l' hij hSj
      by_cases hex : ∃ q ∈ localUpdates sip ig L, lookupIdx sip ig R q.1 = some j
      · obtain ⟨q, hq, hqj⟩ := hex
        have hjR : j < R.length := lookupIdx_lt hqj
        have hvalj : ∀ q' ∈ localUpdates sip ig L,
            lookupIdx sip ig R q'.1 = some j → q'.2 = q.2 :=
          fun q' hq' hqj' => congrArg Prod.snd (huniq j q' hq' q hq hqj' hqj)
        have hSj' := setPart_get_hit _ _ _ j q.2 hjR ⟨q, hq, hqj⟩ hvalj
        rw [hSj'] at hSj
        have hl' : l' = q.2 := (Option.some.inj hSj).symm
        subst hl'
        rw [hU q hq]
        intro hcontra
        have hq1 : q.1 = p.1 := Option.some.inj hcontra
        have : q = p := nodup_keys_pair hnd hq hp hq1
        subst this
        rw [hidx] at hqj
        have : i = j := Option.some.inj hqj
        omega
      · push_neg at hex
        rw [setPart_get_untouched _ _ _ j hex] at hSj
        exact lookupIdx_last hidx j l' hij hSj
    have hlookS : lookupIdx sip ig
        (setPart (lookupIdx sip ig R) (localUpdates sip ig L) R) p.1 = some i :=
      lookupIdx_intro hSi (hU p hp) hlast
    have hlookA : lookupIdx sip ig
        (newVals (lookupIdx sip ig R) (localUpdates sip ig L)) p.1 = none := by
      refine lookupIdx_none_intro (fun j line hj => ?_)
      have hline : line ∈ newVals (lookupIdx sip ig R) (localUpdates sip ig L) :=
        List.getElem?_mem hj
      unfold newVals at hline
      obtain ⟨q, hq, rfl⟩ := List.mem_map.mp hline
      have hq' := List.mem_filter.mp hq
      rw [hU q hq'.1]
      intro hcontra
      have hq1 : q.1 = p.1 := Option.some.inj hcontra
      have hqn : (lookupIdx sip ig R q.1).isNone := by simpa using hq'.2
      rw [hq1, hidx] at hqn
      simp at hqn
    refine ⟨i, ?_, ?_⟩
    · rw [hdecomp, lookupIdx_append_none _ hlookA, hlookS]
    · rw [hdecomp, List.getElem?_append_left (by omega), hSi]
  | none =>
    have hpW : p ∈ (localUpdates sip ig L).filter
        (fun q => (lookupIdx sip ig R q.1).isNone) :=
      List.mem_filter.mpr ⟨hp, by simp [hidx]⟩
    have hndW : (((localUpdates sip ig L).filter
        (fun q => (lookupIdx sip ig R q.1).isNone)).map Prod.fst).Nodup :=
      List.Sublist.nodup (List.Sublist.map Prod.fst (List.filter_sublist _)) hnd
    have hgoodW : ∀ q ∈ (localUpdates sip ig L).filter
        (fun q => (lookupIdx sip ig R q.1).isNone),
        remoteEligible sip ig q.2 = some q.1 :=
      fun q hq => hU q (List.mem_filter.mp hq).1
    obtain ⟨k, hk1, hk2⟩ := lookupIdx_vals hndW hgoodW hpW
    refine ⟨(setPart (lookupIdx sip ig R) (localUpdates sip ig L) R).length + k, ?_, ?_⟩
    · rw [hdecomp]
      exact lookupIdx_append_some _ hk1
    · rw [hdecomp, getElem?_append_plus]
      exact hk2

/-- Applying updates that are already in place is the identity. -/
theorem applyUpdates_fixed {base : List Str} {idx : Str → Option Nat}
    {upds : List (Str × Str)}
    (h : ∀ p ∈ upds, ∃ pos : Nat, idx p.1 = some pos ∧ base[pos]? = some p.2) :
    applyUpdates base idx upds = base := by
  induction upds with
  | nil => rfl
  | cons p ps ih =>
    obtain ⟨pos, hpos, hget⟩ := h p (by simp)
    rw [applyUpdates_cons_some ps base hpos, set_of_getElem? hget]
    exact ih (fun q hq => h q (by simp [hq]))

/-- Two update pairs whose hostnames are recorded at the same remote
index are the same pair. -/
theorem updates_hit_uniq (sip : Str → Bool) (ig : List Str) (L R : List Str) :
    ∀ (j : Nat), ∀ q ∈ localUpdates sip ig L, ∀ q' ∈ localUpdates sip ig L,
      lookupIdx sip ig R q.1 = some j → lookupIdx sip ig R q'.1 = some j → q = q' := by
  intro j q hq q' hq' hjq hjq'
  obtain ⟨line, hl1, hl2⟩ := lookupIdx_get hjq
  obtain ⟨line', hl1', hl2'⟩ := lookupIdx_get hjq'
  rw [hl1] at hl1'
  have hline : line = line' := Option.some.inj hl1'
  subst hline
  rw [hl2] at hl2'
  exact nodup_keys_pair (localUpdates_keys_nodup sip ig L) hq hq' (Option.some.inj hl2')

/-- C1: for every address filter, ignore list, local line list and remote
line list, the merge output has length len(remote) plus the number of
update-dictionary entries whose hostname is not recorded in the remote
index; the update dictionary has pairwise-distinct hostnames whose
members are exactly the eligible local hostnames; and with an empty
remote list the output is exactly the list of stored update lines, every
eligible local entry being appended. -/
theorem merge_length_spec (sip : Str → Bool) (ig : List Str) (L R : List Str) :
    (mergeHosts sip ig L R).length =
      R.length + (localUpdates sip ig L).countP
        (fun p => (lookupIdx sip ig R p.1).isNone) ∧
    ((localUpdates sip ig L).map Prod.fst).Nodup ∧
    (∀ h : Str, h ∈ (localUpdates sip ig L).map Prod.fst ↔
      h ∈ L.filterMap (fun raw => (localEligible sip ig raw).map Prod.fst)) ∧
    mergeHosts sip ig L [] = (localUpdates sip ig L).map Prod.snd := by
  have hbound : ∀ q ∈ localUpdates sip ig L, ∀ i : Nat,
      lookupIdx sip ig R q.1 = some i → i < R.length :=
    fun q _ i hi => lookupIdx_lt hi
  have hdecomp : mergeHosts sip ig L R =
      setPart (lookupIdx sip ig R) (localUpdates sip ig L) R ++
        newVals (lookupIdx sip ig R) (localUpdates sip ig L) :=
    applyUpdates_decomp _ _ _ hbound
  refine ⟨?_, localUpdates_keys_nodup sip ig L,
    fun h => localUpdates_mem_keys sip ig L h, ?_⟩
  · rw [hdecomp]
    rw [List.length_append, setPart_length]
    congr 1
    unfold newVals
    rw [List.length_map, ← List.countP_eq_length_filter]
  · have hbound0 : ∀ q ∈ localUpdates sip ig L, ∀ i : Nat,
        lookupIdx sip ig ([] : List Str) q.1 = some i → i < ([] : List Str).length := by
      intro q _ i hi
      simp [lookupIdx] at hi
    show applyUpdates [] _ _ = _
    rw [applyUpdates_decomp _ _ _ hbound0]
    have h1 : setPart (lookupIdx sip ig []) (localUpdates sip ig L) [] = [] := by
      have := setPart_length (lookupIdx sip ig []) (localUpdates sip ig L) []
      exact List.eq_nil_of_length_eq_zero this
    have h2 : newVals (lookupIdx sip ig []) (localUpdates sip ig L) =
        (localUpdates sip ig L).map Prod.snd := by
      unfold newVals
      congr 1
      refine List.filter_eq_self.mpr (fun p _ => ?_)
      simp [lookupIdx]
    rw [h1, h2, List.nil_append]

/-- C2 counterexample: the merge is not idempotent as claimed.  A local
line whose two tokens are separated only by a form feed (whitespace for
the tokenizing regex, but neither a space nor a tab) is collected as an
update, yet its copy in the merged output fails the remote side's
space-or-tab test, so a second merge appends it again. -/
theorem merge_not_idempotent_cex :
    mergeHostsWithLocal [] ["1.2.3.4\x0chost".toList]
        (mergeHostsWithLocal [] ["1.2.3.4\x0chost".toList] []) ≠
      mergeHostsWithLocal [] ["1.2.3.4\x0chost".toList] [] := by decide

/-- C2 (amended): the merge is idempotent in its remote argument
provided every stored update line contains a literal space or tab
character (in particular for every local hosts file whose entries use
spaces or tabs as separators). -/
theorem merge_idempotent_amended (sip : Str → Bool) (ig : List Str) (L R : List Str)
    (hsp : ∀ p ∈ localUpdates sip ig L, ' ' ∈ p.2 ∨ '\t' ∈ p.2) :
    mergeHosts sip ig L (mergeHosts sip ig L R) = mergeHosts sip ig L R := by
  have hU : ∀ p ∈ localUpdates sip ig L, remoteEligible sip ig p.2 = some p.1 := by
    intro p hp
    obtain ⟨raw, _, he⟩ := localUpdates_pair hp
    have he' : localEligible sip ig raw = some (p.1, p.2) := by rwa [Prod.mk.eta]
    exact localEligible_remote he' (hsp p hp)
  show applyUpdates (mergeHosts sip ig L R) _ _ = _
  exact applyUpdates_fixed (merge_get_pair sip ig L R hU)

theorem merge_idempotent_amended_witness :
    (∀ p ∈ localUpdates should_ignore_ip (mkIgnore []) ["1.2.3.4 a".toList],
      ' ' ∈ p.2 ∨ '\t' ∈ p.2) ∧
    mergeHosts should_ignore_ip (mkIgnore []) ["1.2.3.4 a".toList]
        (mergeHosts should_ignore_ip (mkIgnore []) ["1.2.3.4 a".toList]
          ["5.6.7.8 b".toList]) =
      mergeHosts should_ignore_ip (mkIgnore []) ["1.2.3.4 a".toList]
        ["5.6.7.8 b".toList] :=
  ⟨by decide, merge_idempotent_amended _ _ _ _ (by decide)⟩

/-- C3: untouched remote lines appear verbatim at their original index,
an updated hostname's stored line replaces the line at the recorded
index (the last eligible remote occurrence of that hostname), and
everything past the original remote length is exactly the list of new
entries, in update order. -/
theorem merge_frame_spec (sip : Str → Bool) (ig : List Str) (L R : List Str) :
    (∀ j : Nat, j < R.length →
      (∀ p ∈ localUpdates sip ig L, lookupIdx sip ig R p.1 ≠ some j) →
      (mergeHosts sip ig L R)[j]? = R[j]?) ∧
    (∀ p ∈ localUpdates sip ig L, ∀ j : Nat, lookupIdx sip ig R p.1 = some j →
      (mergeHosts sip ig L R)[j]? = some p.2) ∧
    (mergeHosts sip ig L R).drop R.length =
      ((localUpdates sip ig L).filter
        (fun p => (lookupIdx sip ig R p.1).isNone)).map Prod.snd := by
  have hbound : ∀ q ∈ localUpdates sip ig L, ∀ i : Nat,
      lookupIdx sip ig R q.1 = some i → i < R.length :=
    fun q _ i hi => lookupIdx_lt hi
  have hdecomp : mergeHosts sip ig L R =
      setPart (lookupIdx sip ig R) (localUpdates sip ig L) R ++
        newVals (lookupIdx sip ig R) (localUpdates sip ig L) :=
    applyUpdates_decomp _ _ _ hbound
  have hSlen : (setPart (lookupIdx sip ig R) (localUpdates sip ig L) R).length = R.length :=
    setPart_length _ _ _
  refine ⟨?_, ?_, ?_⟩
  · intro j hj hu
    rw [hdecomp, List.getElem?_append_left (by omega)]
    exact setPart_get_untouched _ _ _ j hu
  · intro p hp j hj
    have hjR : j < R.length := lookupIdx_lt hj
    have hval : ∀ q ∈ localUpdates sip ig L, lookupIdx sip ig R q.1 = some j → q.2 = p.2 :=
      fun q hq hqj => congrArg Prod.snd (updates_hit_uniq sip ig L R j q hq p hp hqj hj)
    rw [hdecomp, List.getElem?_append_left (by omega)]
    exact setPart_get_hit _ _ _ j p.2 hjR ⟨p, hp, hj⟩ hval
  · rw [hdecomp]
    have : R.length = (setPart (lookupIdx sip ig R) (localUpdates sip ig L) R).length :=
      hSlen.symm
    rw [this, List.drop_left]
    rfl

theorem merge_frame_spec_witness :
    (mergeHosts should_ignore_ip (mkIgnore []) ["1.2.3.4 a".toList]
        ["# top".toList, "5.6.7.8 b".toList])[0]? = some ("# top".toList) ∧
    (mergeHosts should_ignore_ip (mkIgnore []) ["9.9.9.9 b".toList]
        ["# top".toList, "5.6.7.8 b".toList])[1]? = some ("9.9.9.9 b".toList) ∧
    (mergeHosts should_ignore_ip (mkIgnore []) ["1.2.3.4 a".toList]
        ["# top".toList, "5.6.7.8 b".toList]).drop 2 = ["1.2.3.4 a".toList] := by
  refine ⟨?_, ?_, ?_⟩
  · exact (merge_frame_spec should_ignore_ip (mkIgnore []) ["1.2.3.4 a".toList]
      ["# top".toList, "5.6.7.8 b".toList]).1 0 (by decide) (by decide)
  · exact (merge_frame_spec should_ignore_ip (mkIgnore []) ["9.9.9.9 b".toList]
      ["# top".toList, "5.6.7.8 b".toList]).2.1
      ("b".toList, "9.9.9.9 b".toList) (by decide) 1 (by decide)
  · have h := (merge_frame_spec should_ignore_ip (mkIgnore []) ["1.2.3.4 a".toList]
      ["# top".toList, "5.6.7.8 b".toList]).2.2
    exact h.trans (by decide)

/-- A line whose leading token is rejected by the address filter is never
remote-eligible, whatever the ignore list. -/
theorem remoteEligible_none_of_filter {sip : Str → Bool} {ig : List Str} {line ipTok : Str}
    {rest : List Str} (htok : tokensOf (pyStrip line) = ipTok :: rest)
    (hs : sip ipTok = true) : remoteEligible sip ig line = none := by
  unfold remoteEligible
  by_cases h1 : (pyStrip line).head? = some '#'
  · simp [h1]
  · by_cases h2 : pyStrip line = []
    · simp [h1, h2]
    · by_cases h3 : ¬ (' ' ∈ pyStrip line ∨ '\t' ∈ pyStrip line)
      · simp [h1, h2, h3]
      · simp only [h1, h2, h3, if_neg, not_false_iff, if_pos]
        rw [htok]
        cases rest with
        | nil => rfl
        | cons host rest' =>
          have : ¬ (sip ipTok = false ∧ host ∉ ig ∧ ipTok ∉ ig) := by
            rintro ⟨hf, -, -⟩
            rw [hs] at hf
            cases hf
          simp [this]

/-- A raw local line whose leading token is rejected by the address
filter never becomes an update, whatever the ignore list. -/
theorem localEligible_none_of_filter {sip : Str → Bool} {ig : List Str} {raw ipTok : Str}
    {rest : List Str} (htok : tokensOf (pyStrip (dropBOM raw)) = ipTok :: rest)
    (hs : sip ipTok = true) : localEligible sip ig raw = none := by
  unfold localEligible
  by_cases h1 : (pyStrip (dropBOM raw)).head? = some '#' ∨
      (∃ ign ∈ ig, ign <:+: pyStrip (dropBOM raw)) ∨ pyStrip (dropBOM raw) = []
  · simp [h1]
  · simp only [h1, if_neg, not_false_iff]
    rw [htok]
    cases rest with
    | nil => rfl
    | cons host rest' =>
      have : ¬ (sip ipTok = false ∧ host ∉ ig ∧ ipTok ∉ ig) := by
        rintro ⟨hf, -, -⟩
        rw [hs] at hf
        cases hf
      simp [this]

/-- C4: an entry whose address token is accepted by __should_ignore_ip
(an IPv4 loopback address or any valid IPv6 address) is never recorded in
the remote hostname index and never becomes a local update or addition,
for every ignore list; and every such remote line is still present
verbatim at its original index in the merge output. -/
theorem merge_address_filter_spec (ig : List Str) (L R : List Str) :
    (∀ line ipTok : Str, ∀ rest : List Str,
      tokensOf (pyStrip line) = ipTok :: rest → should_ignore_ip ipTok = true →
      remoteEligible should_ignore_ip ig line = none) ∧
    (∀ raw ipTok : Str, ∀ rest : List Str,
      tokensOf (pyStrip (dropBOM raw)) = ipTok :: rest → should_ignore_ip ipTok = true →
      localEligible should_ignore_ip ig raw = none) ∧
    (∀ j : Nat, ∀ line ipTok : Str, ∀ rest : List Str, R[j]? = some line →
      tokensOf (pyStrip line) = ipTok :: rest → should_ignore_ip ipTok = true →
      (mergeHosts should_ignore_ip ig L R)[j]? = some line) := by
  refine ⟨fun line ipTok rest htok hs => remoteEligible_none_of_filter htok hs,
    fun raw ipTok rest htok hs => localEligible_none_of_filter htok hs,
    fun j line ipTok rest hj htok hs => ?_⟩
  have hjR : j < R.length := by
    by_contra hge
    rw [List.getElem?_eq_none (by omega)] at hj
    cases hj
  have hnone : remoteEligible should_ignore_ip ig line = none :=
    remoteEligible_none_of_filter htok hs
  have huntouched : ∀ p ∈ localUpdates should_ignore_ip ig L,
      lookupIdx should_ignore_ip ig R p.1 ≠ some j := by
    intro p hp hcontra
    obtain ⟨line', hl1, hl2⟩ := lookupIdx_get hcontra
    rw [hj] at hl1
    have : line = line' := Option.some.inj hl1
    subst this
    rw [hnone] at hl2
    cases hl2
  have := (merge_frame_spec should_ignore_ip ig L R).1 j hjR huntouched
  rw [this, hj]

theorem merge_address_filter_spec_witness :
    remoteEligible should_ignore_ip (mkIgnore []) "127.0.0.1 gw".toList = none ∧
    localEligible should_ignore_ip (mkIgnore []) "::1 gw6".toList = none ∧
    (mergeHosts should_ignore_ip (mkIgnore []) ["9.9.9.9 gw".toList]
      ["127.0.0.1 gw".toList])[0]? = some ("127.0.0.1 gw".toList) :=
  ⟨(merge_address_filter_spec (mkIgnore []) [] []).1 "127.0.0.1 gw".toList
      "127.0.0.1".toList ["gw".toList] (by decide) (by decide),
    (merge_address_filter_spec (mkIgnore []) [] []).2.1 "::1 gw6".toList
      "::1".toList ["gw6".toList] (by decide) (by decide),
    (merge_address_filter_spec (mkIgnore []) ["9.9.9.9 gw".toList]
        ["127.0.0.1 gw".toList]).2.2 0 ("127.0.0.1 gw".toList)
      "127.0.0.1".toList ["gw".toList] (by decide) (by decide) (by decide)⟩

/-- C5: the ignore rule is asymmetric.  The constructed ignore list
always contains the literal "localhost"; a well-formed, filter-passing
remote entry is excluded from the hostname index exactly when its ip or
hostname token is a member of the ignore list; and a local line is
skipped as soon as any ignore entry occurs anywhere in it as a
substring. -/
theorem merge_ignore_asymmetry_spec :
    (∀ cfg : Str, "localhost".toList ∈ mkIgnore cfg) ∧
    (∀ (sip : Str → Bool) (ig : List Str) (line ipTok host : Str) (rest : List Str),
      ¬ (pyStrip line).head? = some '#' → pyStrip line ≠ [] →
      (' ' ∈ pyStrip line ∨ '\t' ∈ pyStrip line) →
      tokensOf (pyStrip line) = ipTok :: host :: rest → sip ipTok = false →
      (remoteEligible sip ig line = none ↔ host ∈ ig ∨ ipTok ∈ ig)) ∧
    (∀ (sip : Str → Bool) (ig : List Str) (raw ign : Str),
      ign ∈ ig → ign <:+: pyStrip (dropBOM raw) → localEligible sip ig raw = none) := by
  refine ⟨fun cfg => by simp [mkIgnore], ?_, ?_⟩
  · intro sip ig line ipTok host rest h1 h2 h3 htok hsip
    unfold remoteEligible
    have h3' : ¬ ¬ (' ' ∈ pyStrip line ∨ '\t' ∈ pyStrip line) := not_not_intro h3
    simp only [h1, h2, h3', if_neg, not_false_iff]
    rw [htok]
    by_cases hm : host ∈ ig ∨ ipTok ∈ ig
    · have : ¬ (sip ipTok = false ∧ host ∉ ig ∧ ipTok ∉ ig) := by
        rintro ⟨-, hh, hi⟩
        rcases hm with hm | hm
        · exact hh hm
        · exact hi hm
      simp [this, hm]
    · push_neg at hm
      have hcond : sip ipTok = false ∧ host ∉ ig ∧ ipTok ∉ ig := ⟨hsip, hm.1, hm.2⟩
      simp [hcond, hm.1, hm.2]
  · intro sip ig raw ign hig hinf
    unfold localEligible
    have : (pyStrip (dropBOM raw)).head? = some '#' ∨
        (∃ i ∈ ig, i <:+: pyStrip (dropBOM raw)) ∨ pyStrip (dropBOM raw) = [] :=
      Or.inr (Or.inl ⟨ign, hig, hinf⟩)
    simp [this]

theorem merge_ignore_asymmetry_spec_witness :
    "localhost".toList ∈ mkIgnore "10.0.0.1".toList ∧
    (remoteEligible should_ignore_ip ["myhost".toList] "1.2.3.4 myhost".toList = none ↔
      ("myhost".toList ∈ [("myhost".toList : Str)] ∨
        "1.2.3.4".toList ∈ [("myhost".toList : Str)])) ∧
    localEligible should_ignore_ip ["host".toList] "1.2.3.4 myhost".toList = none :=
  ⟨merge_ignore_asymmetry_spec.1 ("10.0.0.1".toList),
    merge_ignore_asymmetry_spec.2.1 should_ignore_ip ["myhost".toList]
      "1.2.3.4 myhost".toList "1.2.3.4".toList "myhost".toList [] (by decide) (by decide)
      (by decide) (by decide) (by decide),
    merge_ignore_asymmetry_spec.2.2 should_ignore_ip ["host".toList]
      "1.2.3.4 myhost".toList "host".toList (by decide) (by decide)⟩

/- Path-translation lemmas. -/

theorem replaceFirst_self_append (old new s : Str) (h : old ≠ []) :
    replaceFirst (old ++ s) old new = new ++ s := by
  unfold replaceFirst
  rw [if_neg h]
  cases old with
  | nil => exact absurd rfl h
  | cons c cs =>
    show replaceFirstGo (c :: cs) new (c :: (cs ++ s)) = new ++ s
    unfold replaceFirstGo
    have hpre : (c :: cs).isPrefixOf (c :: cs ++ s) := by
      rw [List.isPrefixOf_iff_prefix]
      exact List.prefix_append _ _
    rw [if_pos (by simp [hpre])]
    have : List.drop (c :: cs).length (c :: cs ++ s) = s := List.drop_left (c :: cs) s
    rw [show c :: (cs ++ s) = (c :: cs) ++ s from rfl, this]

/-- The first matching triple rule decides findLibRule. -/
theorem findLibRule_of_first {rules : List PathLibRule} {i : Nat} {r : PathLibRule}
    (pN : Str) (hi : rules[i]? = some r)
    (hm : ensureSlash (normSlash r.localPath) <+: pN ∨ pN = normSlash r.localPath)
    (hearlier : ∀ (j : Nat) (r' : PathLibRule), j < i → rules[j]? = some r' →
      ¬ (ensureSlash (normSlash r'.localPath) <+: pN ∨ pN = normSlash r'.localPath)) :
    findLibRule rules pN =
      some (replaceFirst pN (normSlash r.localPath) (normSlash r.remotePath),
        r.library_id) := by
  induction rules generalizing i with
  | nil => simp at hi
  | cons r0 rs ih =>
    cases i with
    | zero =>
      simp at hi
      subst hi
      unfold findLibRule
      rw [if_pos hm]
    | succ i =>
      simp at hi
      have h0 : ¬ (ensureSlash (normSlash r0.localPath) <+: pN ∨
          pN = normSlash r0.localPath) :=
        hearlier 0 r0 (by omega) (by simp)
      unfold findLibRule
      rw [if_neg h0]
      exact ih hi (fun j r' hj hr' =>
        hearlier (j + 1) r' (by omega) (by simpa using hr'))

/-- C6: for a marker-prefixed path, the remainder is matched against the
triple rules in order; the first rule whose (normalised, slash-ensured)
local prefix matches at a segment boundary — the remainder starts with it
or equals the bare local prefix — rewrites the first occurrence of the
local prefix to the remote prefix, and the rule's library id is
returned. -/
theorem translate_marker_triple (cfg : PSConfig) (rest : Str) {i : Nat} {r : PathLibRule}
    (hi : cfg.path_library_mapping[i]? = some r)
    (hm : ensureSlash (normSlash r.localPath) <+: normSlash rest ∨
      normSlash rest = normSlash r.localPath)
    (hearlier : ∀ (j : Nat) (r' : PathLibRule), j < i →
      cfg.path_library_mapping[j]? = some r' →
      ¬ (ensureSlash (normSlash r'.localPath) <+: normSlash rest ∨
        normSlash rest = normSlash r'.localPath)) :
    translate_path cfg (markerU115 ++ rest) =
      some (replaceFirst (normSlash rest) (normSlash r.localPath)
        (normSlash r.remotePath), some r.library_id) := by
  have hpre : markerU115 <+: markerU115 ++ rest := List.prefix_append _ _
  have hpwp : replaceFirst (markerU115 ++ rest) markerU115 [] = rest := by
    rw [replaceFirst_self_append _ _ _ (by decide)]
    rfl
  have hfind := findLibRule_of_first (normSlash rest) hi hm hearlier
  simp only [translate_path, hpre, if_true, hpwp, hfind]

theorem translate_marker_triple_witness :
    translate_path
        ⟨[⟨"/a/".toList, "/x/".toList, "7".toList⟩], [], [], []⟩
        ("【u115】/a/b/file.mkv".toList) =
      some ("/x/b/file.mkv".toList, some ("7".toList)) := by
  have h := translate_marker_triple
    ⟨[⟨"/a/".toList, "/x/".toList, "7".toList⟩], [], [], []⟩
    ("/a/b/file.mkv".toList) (i := 0) (r := ⟨"/a/".toList, "/x/".toList, "7".toList⟩)
    (by decide) (by decide) (fun j r' hj hr' => absurd hj (by omega))
  have heq : "【u115】/a/b/file.mkv".toList = markerU115 ++ "/a/b/file.mkv".toList := by
    decide
  rw [heq, h]
  decide

/-- C7 counterexample: with a configured pair rule that does not match,
the translator returns the backslash-normalised input, not the original
path, refuting the claim that a non-matching input comes back
unchanged. -/
theorem translate_legacy_cex :
    translate_path ⟨[], "/a/".toList, "/y/".toList, []⟩ ("\\x".toList) =
      some ("/x".toList, none) ∧ "/x".toList ≠ "\\x".toList := by decide

/-- C7 (amended): for a path without the marker that matches no triple
rule, when both legacy prefixes are configured the translator normalises
the input and the prefixes (backslash to slash, trailing slash ensured)
and substitutes the local prefix once when the normalised input starts
with it, returning no library id; when it does not start with it, the
normalised (not the original) input is returned; and when either legacy
prefix is unconfigured, the original path is returned unchanged. -/
theorem translate_legacy_amended (cfg : PSConfig) (p : Str)
    (hnm : ¬ markerU115 <+: p)
    (hnr : findLibRule cfg.path_library_mapping (normSlash p) = none) :
    (cfg.path_mapping_local = [] ∨ cfg.path_mapping_remote = [] →
      translate_path cfg p = some (p, none)) ∧
    (cfg.path_mapping_local ≠ [] → cfg.path_mapping_remote ≠ [] →
      (ensureSlash (normSlash cfg.path_mapping_local) <+: normSlash p →
        translate_path cfg p = some (replaceFirst (normSlash p)
          (ensureSlash (normSlash cfg.path_mapping_local))
          (ensureSlash (normSlash cfg.path_mapping_remote)), none)) ∧
      (¬ ensureSlash (normSlash cfg.path_mapping_local) <+: normSlash p →
        translate_path cfg p = some (normSlash p, none))) := by
  refine ⟨fun hun => ?_, fun hl hr => ⟨fun hpre => ?_, fun hnpre => ?_⟩⟩
  · simp only [translate_path, hnm, if_false, hnr, hun, if_true]
  · have hun : ¬ (cfg.path_mapping_local = [] ∨ cfg.path_mapping_remote = []) := by
      rintro (h | h)
      · exact hl h
      · exact hr h
    simp only [translate_path, hnm, if_false, hnr, hun, hpre, if_true]
  · have hun : ¬ (cfg.path_mapping_local = [] ∨ cfg.path_mapping_remote = []) := by
      rintro (h | h)
      · exact hl h
      · exact hr h
    simp only [translate_path, hnm, if_false, hnr, hun, hnpre, if_true]

theorem translate_legacy_amended_witness :
    (¬ markerU115 <+: "/a/b/file.mkv".toList) ∧
    translate_path ⟨[], "/a/".toList, "/y/".toList, []⟩ ("/a/b/file.mkv".toList) =
      some ("/y/b/file.mkv".toList, none) ∧
    translate_path ⟨[], [], [], []⟩ ("/q/r.mkv".toList) =
      some ("/q/r.mkv".toList, none) := by
  refine ⟨by decide, ?_, ?_⟩
  · have h := ((translate_legacy_amended ⟨[], "/a/".toList, "/y/".toList, []⟩
      ("/a/b/file.mkv".toList) (by decide) (by decide)).2
      (by decide) (by decide)).1 (by decide)
    rw [h]
    decide
  · exact (translate_legacy_amended ⟨[], [], [], []⟩ ("/q/r.mkv".toList)
      (by decide) (by decide)).1 (by decide)

/-- C10 counterexample: the caller's failure test does fire on a
translator result.  On an empty input with nothing configured the
translator returns the pair ("", None); the first component is falsy, so
`if not result or not result[0]` takes the failure branch. -/
theorem translate_caller_failure_cex :
    translate_path ⟨[], [], [], []⟩ [] = some ([], none) ∧
    scanFailCheck (translate_path ⟨[], [], [], []⟩ []) = true := by decide

/-- C10 (amended): the translator is total — every configuration and
input yield a present pair whose first component is a string — but the
caller's failure branch is taken exactly when that string is empty. -/
theorem translate_total_amended (cfg : PSConfig) (p : Str) :
    (∃ q lib, translate_path cfg p = some (q, lib)) ∧
    (scanFailCheck (translate_path cfg p) = true ↔
      ∃ lib, translate_path cfg p = some ([], lib)) := by
  obtain ⟨q, lib, hq⟩ : ∃ q lib, translate_path cfg p = some (q, lib) := by
    simp only [translate_path, simpleU115]
    repeat' split
    all_goals exact ⟨_, _, rfl⟩
  refine ⟨⟨q, lib, hq⟩, ?_⟩
  rw [hq]
  show (q.isEmpty = true) ↔ _
  rw [List.isEmpty_iff]
  constructor
  · rintro rfl
    exact ⟨lib, rfl⟩
  · rintro ⟨lib', hlib⟩
    have := Option.some.inj hlib
    exact congrArg Prod.fst this

/-- C9 bug witness: the per-directory loop removes the stale grouping
variable (the last snapshot entry) instead of the processed items, so a
two-entry queue whose entries share one directory keeps its first entry
after processing: the queue is not drained. -/
theorem scan_queue_not_drained_bug :
    (process_scan_queue ⟨[], [], [], []⟩
        [⟨"/m/x.mkv".toList, none, 0⟩, ⟨"/m/y.mkv".toList, none, 1⟩]).1 =
      [⟨"/m/x.mkv".toList, none, 0⟩] ∧
    (process_scan_queue ⟨[], [], [], []⟩
        [⟨"/m/x.mkv".toList, none, 0⟩, ⟨"/m/y.mkv".toList, none, 1⟩]).1 ≠ [] := by
  decide

/-- C8 bug witness: with three queued entries in three distinct
directories, the grouping produces three directory groups, but the stale
remove raises ValueError during the second group's cleanup, the except
handler's identical remove re-raises, and the loop dies: only the first
two directories receive a rescan call and the third group gets none. -/
theorem scan_queue_missing_dir_bug :
    (buildDirMap ⟨[], [], [], []⟩
        [⟨"/m1/x.mkv".toList, none, 0⟩, ⟨"/m2/y.mkv".toList, none, 1⟩,
          ⟨"/m3/z.mkv".toList, none, 2⟩]).map Prod.fst =
      ["/m1/".toList, "/m2/".toList, "/m3/".toList] ∧
    ((process_scan_queue ⟨[], [], [], []⟩
        [⟨"/m1/x.mkv".toList, none, 0⟩, ⟨"/m2/y.mkv".toList, none, 1⟩,
          ⟨"/m3/z.mkv".toList, none, 2⟩]).2.1).map Prod.fst =
      ["/m1/".toList, "/m2/".toList] ∧
    (process_scan_queue ⟨[], [], [], []⟩
        [⟨"/m1/x.mkv".toList, none, 0⟩, ⟨"/m2/y.mkv".toList, none, 1⟩,
          ⟨"/m3/z.mkv".toList, none, 2⟩]).2.2 = true := by
  decide
